import Mathlib

/-!
Verification of the fiberize event-dispatch and scheduling core.

This file gives a shallow embedding of the C++ sources of the fiberize
runtime (the `Context` event loop, the handler-stack dispatch machinery,
the `System` lifecycle counters and the executor selection) and proves the
spec claims about them.

Conventions of the embedding:
* the opaque `Path` key and the opaque payload pointer `data` are both
  modelled as `Nat`;
* C++ exceptions become `Except`; an `EventFired{value}` control transfer
  is the `.error` carrying the value;
* the multi-producer single-consumer mailbox is modelled from the consumer
  side as the list of events it will hand out, in FIFO order;
* unbounded `while` loops are driven either by the input list they consume
  or by an explicit fuel argument; running out of fuel is a distinguished
  "still looping" outcome, never a normal return.
-/

namespace Fiberize

/-- A pending event, as enqueued into a mailbox: `{path, data, freeData}`.
The `freeData` function pointer is not part of the value here; invocations
of `freeData` are recorded as traces of the `data` field. -/
structure PendingEvent where
  path : Nat
  data : Nat
  deriving DecidableEq, Repr

/-!
## Context::process (src/unnamed/part_000, lines 84-96)

    void Context::process() {
        PendingEvent event;
        while (controlBlock->mailbox->dequeue(event)) {
            try {
                handleEvent(event);
            } catch (...) {
                event.freeData(event.data);
                throw;
            }
            event.freeData(event.data);
        }
    }

`handleEvent` is abstracted as an arbitrary `PendingEvent → Except Nat Unit`.
`processLoop` returns the list of dequeued events, the trace of `freeData`
invocations (the `data` arguments, in call order) and the final result.
-/

/-- One guarded `handleEvent` call as it appears in the body of
`Context::process` and in the re-check branch of `Context::yield`
(lines 61-67): handle the event, free the payload on the exceptional path
and rethrow, otherwise free the payload on the normal path. Returns the
result together with the trace of `freeData` invocations. -/
def handleFree (handle : PendingEvent → Except Nat Unit) (e : PendingEvent) :
    Except Nat Unit × List Nat :=
  match handle e with
  | .error err => (.error err, [e.data])
  | .ok () => (.ok (), [e.data])

/-- The drain loop of `Context::process`: dequeue events in FIFO order,
handling each with the `handleFree` discipline; a thrown exception stops
the loop and propagates. Returns (dequeued events, freeData trace, result). -/
def processLoop (handle : PendingEvent → Except Nat Unit) :
    List PendingEvent → List PendingEvent × List Nat × Except Nat Unit
  | [] => ([], [], .ok ())
  | e :: rest =>
    match handle e with
    | .error err => ([e], [e.data], .error err)
    | .ok () =>
      let out := processLoop handle rest
      (e :: out.1, e.data :: out.2.1, out.2.2)

/-!
## Context::yield (src/unnamed/part_000, lines 42-82)

    void Context::yield() {
        while (true) {
            process();
            if (controlBlock->executor != nullptr) {
                controlBlock->mutex.lock();
                PendingEvent event;
                if (controlBlock->mailbox->dequeue(event)) {
                    controlBlock->mutex.unlock();
                    try { handleEvent(event); }
                    catch (...) { event.freeData(event.data); throw; }
                    event.freeData(event.data);
                    continue;
                }
                controlBlock->executor->suspend();
            } else {
                // TODO: change this to conditions.
                std::this_thread::sleep_for(1ms);
            }
        }
    }

The loop is modelled against a schedule of arrival batches: `sched.head`
is the list of events concurrent senders enqueue between the drain at the
top of an iteration and the re-check of the mailbox; the mailbox observed
under the mutex is exactly that batch. The trace records, per iteration,
the events drained by `process()`, the mailbox as observed under the mutex
(`none` when the fiber is unbound and no lock is taken), and the action
the iteration ends with.
-/

/-- Action ending one iteration of the `Context::yield` loop. -/
inductive YieldAct where
  | handledLate (e : PendingEvent)
  | suspended
  | slept (ms : Nat)
  deriving DecidableEq, Repr

/-- Record of one iteration of the `Context::yield` loop. -/
structure YieldRec where
  drained : List PendingEvent
  observed : Option (List PendingEvent)
  act : YieldAct
  deriving DecidableEq, Repr

/-- Iteration trace of `Context::yield`, driven by a schedule of arrival
batches. With an executor: the mailbox is re-checked under the mutex; a
non-empty mailbox makes the iteration unlock, handle the dequeued event and
restart; an empty mailbox suspends the fiber (ending the trace). Without an
executor the iteration sleeps for 1 ms and restarts. -/
def yieldTrace (hasExecutor : Bool) :
    List (List PendingEvent) → List PendingEvent → List YieldRec
  | [], _ => []
  | a :: sched, m =>
    if hasExecutor then
      match a with
      | e :: rest => ⟨m, some (e :: rest), .handledLate e⟩ :: yieldTrace hasExecutor sched rest
      | [] => [⟨m, some [], .suspended⟩]
    else
      ⟨m, none, .slept 1⟩ :: yieldTrace hasExecutor sched a

/-- Control-flow outcomes of the `Context::yield` loop. `normalReturn` is
the outcome the loop can never produce: its body is an unconditional
`while (true)` with no `break` or `return`. -/
inductive ControlResult where
  | normalReturn
  | threw (e : Nat)
  | stillLooping
  deriving DecidableEq, Repr

/-- Body of one `Context::yield` iteration for the control-flow model:
drain the mailbox (a throw from a handler propagates), then either handle
one late event under the re-check (a throw propagates), suspend until
re-enabled, or sleep; in every non-throwing case the loop continues with
the remaining mailbox. -/
def yieldIterBody (handle : PendingEvent → Except Nat Unit) (hasExecutor : Bool)
    (m arrived : List PendingEvent) : Except Nat (List PendingEvent) :=
  match (processLoop handle m).2.2 with
  | .error e => .error e
  | .ok () =>
    if hasExecutor then
      match arrived with
      | e :: rest =>
        match (handleFree handle e).1 with
        | .error err => .error err
        | .ok () => .ok rest
      | [] => .ok []
    else
      .ok arrived

/-- The `Context::yield` loop as a fueled iteration of `yieldIterBody`.
Exhausted fuel is reported as `stillLooping`. -/
def yieldControl (handle : PendingEvent → Except Nat Unit) (hasExecutor : Bool) :
    Nat → List PendingEvent → List (List PendingEvent) → ControlResult
  | 0, _, _ => .stillLooping
  | fuel + 1, m, sched =>
    match yieldIterBody handle hasExecutor m (sched.headD []) with
    | .error e => .threw e
    | .ok m2 => yieldControl handle hasExecutor fuel m2 sched.tail

/-!
## Handler stacks (src/unnamed/part_000 and part_004)

`HandlerBlock` is `std::list<std::unique_ptr<Handler>> stackedHandlers`;
`bind` appends at the back, destroyed handlers are pruned lazily. The
opaque `execute` body of a handler is modelled by a `Behavior`: `plain`
for an ordinary user handler (runs, does not throw), `awaiter` for the
handler installed by `Event::await` (calls `super()`, then throws
`EventFired{value}` with the received payload).
-/

/-- Body of a handler, as relevant to the claims. -/
inductive Behavior where
  | plain
  | awaiter
  deriving DecidableEq, Repr

/-- One `detail::Handler`: an identity, the destroyed flag owned by its
`HandlerRef`, and its body. -/
structure Handler where
  hid : Nat
  destroyed : Bool
  behavior : Behavior
  deriving DecidableEq, Repr

/-!
## Context::super (src/unnamed/part_000, lines 98-132)

    void Context::super() {
        if (handlerContext->handler == handlerContext->handlerBlock->stackedHandlers.begin())
            return;
        auto it = --handlerContext->handler;
        while ((*it)->isDestroyed()) {
            if (it == handlerContext->handlerBlock->stackedHandlers.begin()) {
                handlerContext->handlerBlock->stackedHandlers.pop_front();
                return;
            } else {
                auto copy = it;
                --it;
                handlerContext->handlerBlock->stackedHandlers.erase(copy);
            }
        }
        handlerContext->handler = it;
        (*it)->execute(handlerContext->data);
    }

The iterator cursor into the `std::list` is modelled as an index into a
`List Handler` (index 0 = front = oldest binding; index `length` = the
past-the-end position at which `HandlerContext` starts). `superWalk`
models the destroyed-handler walk: starting at index `it`, it erases
destroyed handlers while moving toward the front; it either finds a live
handler (returned with its index in the pruned list) or pops the front
and gives up. In the pop-front path the source leaves the stored iterator
dangling and never uses it again within the dispatch; the model pins the
cursor to the front (index 0), where `super` is a no-op. -/
def superWalk (ys : List Handler) (it : Nat) : List Handler × Nat × Option Handler :=
  match ys.get? it with
  | none => (ys, 0, none)
  | some h =>
    if h.destroyed then
      if it = 0 then (ys.tail, 0, none)
      else superWalk (ys.eraseIdx it) (it - 1)
    else (ys, it, some h)
termination_by it

/-- State of a `HandlerContext` during one dispatch: the handler block's
stacked handlers, the cursor (an index; `handlers.length` is the
past-the-end position) and the event payload. -/
structure SuperState where
  handlers : List Handler
  cursor : Nat
  data : Nat
  deriving DecidableEq, Repr

/-- One call to `Context::super`, with the executed handler's body left
opaque: the call returns the new state together with the handler it
executed (paired with the payload passed to `execute`), or `none` when it
executed nothing (cursor at the front, or only destroyed handlers left). -/
def superStep (s : SuperState) : SuperState × Option (Handler × Nat) :=
  if s.cursor = 0 then (s, none)
  else
    match superWalk s.handlers (s.cursor - 1) with
    | (hs2, _, none) => (⟨hs2, 0, s.data⟩, none)
    | (hs2, it, some h) => (⟨hs2, it, s.data⟩, some (h, s.data))

/-- Iterated `super` calls within one dispatch (the pattern in which every
executed handler chains to `super`), collecting the executed handlers in
order, until a call executes nothing. -/
def runSuper : Nat → SuperState → List (Handler × Nat) × SuperState
  | 0, s => ([], s)
  | fuel + 1, s =>
    match superStep s with
    | (s2, none) => ([], s2)
    | (s2, some e) =>
      let out := runSuper fuel s2
      (e :: out.1, out.2)

/-!
## Dispatch with handler bodies (Event::await support)

`superExec` is `Context::super` again, but with the `execute` call of the
found handler inlined according to its `Behavior`: a `plain` handler
returns normally; an `awaiter` handler first calls `super()` (the
recursive call) and then throws `EventFired{value}` carrying the payload —
unless the inner `super` itself threw, in which case that transfer
propagates through the awaiter's frame. The fuel bounds the nesting depth
of `super` calls; since each nested call starts at a strictly smaller
cursor, `handlers.length + 1` fuel always suffices. -/

/-- Result of a dispatch through `superExec`: the mutated handler stack,
the final cursor, the executed handler ids in order, and the value of an
`EventFired` transfer if one was thrown. -/
structure ExecOut where
  handlers : List Handler
  cursor : Nat
  executed : List Nat
  fired : Option Nat
  deriving DecidableEq, Repr

/-- The `Context::super` call with handler bodies inlined (see above). -/
def superExec : Nat → List Handler → Nat → Nat → ExecOut
  | 0, hs, c, _ => ⟨hs, c, [], none⟩
  | fuel + 1, hs, c, d =>
    if c = 0 then ⟨hs, c, [], none⟩
    else
      match superWalk hs (c - 1) with
      | (hs2, _, none) => ⟨hs2, 0, [], none⟩
      | (hs2, it, some h) =>
        match h.behavior with
        | .plain => ⟨hs2, it, [h.hid], none⟩
        | .awaiter =>
          let o := superExec fuel hs2 it d
          match o.fired with
          | some v => ⟨o.handlers, o.cursor, h.hid :: o.executed, some v⟩
          | none => ⟨o.handlers, o.cursor, h.hid :: o.executed, some d⟩

/-!
## The per-fiber handler table (Context::handleEvent, Context::bind)

`handlerBlocks : unordered_map<Path, unique_ptr<HandlerBlock>>` is
modelled as an association list from path to stacked handlers.
-/

/-- Association list from event path to the handler block's stacked
handlers; models `Context::handlerBlocks`. -/
abbrev EvContext := List (Nat × List Handler)

/-- Lookup of `handlerBlocks.find(path)`. -/
def lookupBlock : EvContext → Nat → Option (List Handler)
  | [], _ => none
  | (q, blk) :: rest, p => if q = p then some blk else lookupBlock rest p

/-- Store a (possibly new) handler block under a path; models writing
through the map entry (and `emplace` when absent). -/
def setBlock : EvContext → Nat → List Handler → EvContext
  | [], p, blk => [(p, blk)]
  | (q, b) :: rest, p, blk =>
    if q = p then (p, blk) :: rest else (q, b) :: setBlock rest p blk

/-- Erase the map entry for a path; models `handlerBlocks.erase(it)`. -/
def eraseBlock : EvContext → Nat → EvContext
  | [], _ => []
  | (q, b) :: rest, p => if q = p then rest else (q, b) :: eraseBlock rest p

/-- The destroyed-tail pruning of `Context::handleEvent` (lines 146-148):
`while (!empty && back->isDestroyed()) pop_back;`. Implemented by dropping
the destroyed suffix. -/
def dropDestroyedBack (l : List Handler) : List Handler :=
  (l.reverse.dropWhile (fun h => h.destroyed)).reverse

/-- Result of `Context::handleEvent`: the updated handler table, the
executed handler ids, and a thrown `EventFired` value if any. -/
structure DispatchOut where
  ctx : EvContext
  executed : List Nat
  fired : Option Nat
  deriving DecidableEq, Repr

/-- Context::handleEvent (src/unnamed/part_000, lines 134-164): look up
the handler block for the event's path (absent: drop the event); pop
destroyed handlers off the tail (block empty afterwards: erase the entry
and return); otherwise install a `HandlerContext` with the cursor at the
past-the-end position and call `super()`. Mutations of the block persist
on both the normal and the throwing exit. -/
def handleEvent (ctx : EvContext) (e : PendingEvent) : DispatchOut :=
  match lookupBlock ctx e.path with
  | none => ⟨ctx, [], none⟩
  | some block =>
    let block1 := dropDestroyedBack block
    if block1.isEmpty then ⟨eraseBlock ctx e.path, [], none⟩
    else
      let o := superExec (block1.length + 1) block1 block1.length e.data
      ⟨setBlock ctx e.path o.handlers, o.executed, o.fired⟩

/-- Context::bind (src/unnamed/part_000, lines 166-178): find the handler
block for the path, creating it when absent, and append the handler at
the back. -/
def bindHandler (ctx : EvContext) (p : Nat) (h : Handler) : EvContext :=
  match lookupBlock ctx p with
  | none => setBlock ctx p [h]
  | some block => setBlock ctx p (block ++ [h])

/-- The event-dispatch content of `Context::yield` as seen by `await`:
events are dequeued in FIFO order and dispatched with `handleEvent`; the
first `EventFired` transfer thrown by a handler propagates out of the
loop. An exhausted mailbox ends the model (the real loop would suspend
and keep going). -/
def yieldDispatch (ctx : EvContext) : List PendingEvent → EvContext × Option Nat
  | [] => (ctx, none)
  | e :: rest =>
    let o := handleEvent ctx e
    match o.fired with
    | some v => (o.ctx, some v)
    | none => yieldDispatch o.ctx rest

/-- Event::await (src/include/fiberize/event.hpp, lines 51-62): bind a
handler for the event's path whose body calls `super()` and then throws
`EventFired{value}`; call `yield()`; catch the `EventFired` at the
awaiting frame and return the carried value. `none` means the model ran
out of mailbox events while still looping inside `yield`. -/
def awaitEvent (ctx : EvContext) (p hid : Nat) (mailbox : List PendingEvent) : Option Nat :=
  let ctx1 := bindHandler ctx p ⟨hid, false, .awaiter⟩
  (yieldDispatch ctx1 mailbox).2

/-!
## System lifecycle (src/unnamed/part_005, src/include/fiberize/system.hpp)
-/

/-- Steps of the running-fiber counter: a fiber is started (the counter is
bumped) or finishes (`System::fiberFinished` is called). -/
inductive SysOp where
  | start
  | finish
  deriving DecidableEq, Repr

/-- System::fiberFinished (src/unnamed/part_005, lines 83-89):

    if (std::atomic_fetch_sub_explicit(&running, 1lu, ...) == 1) {
        mainFiber().emit(allFibersFinished_);
    }

`sysRun` folds a trace of counter steps from an initial counter value and
returns the final counter together with the number of `allFibersFinished`
emissions: `fiberFinished` decrements and emits exactly when the value it
read was 1. -/
def sysRun : List SysOp → Nat → Nat × Nat
  | [], r => (r, 0)
  | .start :: ops, r => sysRun ops (r + 1)
  | .finish :: ops, r =>
    let e := if r = 1 then 1 else 0
    let out := sysRun ops (r - 1)
    (out.1, e + out.2)

/-- Effect of one counter step on the running counter. -/
def applyOp (r : Nat) : SysOp → Nat
  | .start => r + 1
  | .finish => r - 1

/-- Value of the running counter after a trace of steps. -/
def runningAfter (ops : List SysOp) (r0 : Nat) : Nat :=
  ops.foldl applyOp r0

/-- Predicate picking out the steps at which the running counter drops
from 1 to 0: finish steps whose pre-state counter (computed over the
prefix before the step) equals 1. -/
def isDropStep (ops : List SysOp) (r0 i : Nat) : Bool :=
  (ops.get? i == some SysOp.finish) && (runningAfter (ops.take i) r0 == 1)

/-- Indices of the steps at which the running counter drops from 1 to 0.
This is the specification-side description of the emission points,
computed over prefixes. -/
def dropSteps (ops : List SysOp) (r0 : Nat) : List Nat :=
  (List.range ops.length).filter (isDropStep ops r0)

/-- State of the `System` front-end relevant to `run`/`shutdown`: the
`shuttingDown` flag and the number of control blocks allocated so far. -/
structure SysState where
  shuttingDown : Bool
  blocksAllocated : Nat
  deriving DecidableEq, Repr

/-- Reference returned by `System::run`: a local reference to a freshly
allocated control block, or a dead-letter reference. -/
inductive RunRef where
  | localRef (block : Nat)
  | deadLetter
  deriving DecidableEq, Repr

/-- System::run (src/include/fiberize/system.hpp, lines 29-54): when the
system is not shutting down, construct the fiber, allocate a control
block, hand it to an executor and return a local reference to it; when
shutting down, allocate nothing and return a dead-letter reference. -/
def sysRunFiber (s : SysState) : SysState × RunRef :=
  if s.shuttingDown = false then
    ({ s with blocksAllocated := s.blocksAllocated + 1 }, .localRef s.blocksAllocated)
  else
    (s, .deadLetter)

/-- System::shutdown (src/include/fiberize/system.hpp, lines 59-61 and
src/unnamed/part_005, lines 69-71): set the `shuttingDown` flag. No code
path ever clears the flag. -/
def sysShutdown (s : SysState) : SysState :=
  { s with shuttingDown := true }

/-- A sequence of `n` further calls to `System::run`, returning the final
state and the references handed out in order. -/
def runMany : Nat → SysState → SysState × List RunRef
  | 0, s => (s, [])
  | n + 1, s =>
    let o := sysRunFiber s
    let out := runMany n o.1
    (out.1, o.2 :: out.2)

/-!
## Executor selection (src/unnamed/part_005, lines 77-81)

    void System::schedule(detail::ControlBlock* controlBlock) {
        uint64_t i = std::atomic_fetch_add(&roundRobinCounter, 1lu);
        executors[i % executors.size()]->schedule(controlBlock);
    }
-/

/-- State of the round-robin executor selection. -/
structure SchedState where
  roundRobinCounter : Nat
  numExecutors : Nat
  deriving DecidableEq, Repr

/-- System::schedule: fetch-and-add the round-robin counter and select the
executor at the old counter value modulo the number of executors. Returns
the new state and the selected executor index. -/
def schedule (s : SchedState) : SchedState × Nat :=
  ({ s with roundRobinCounter := s.roundRobinCounter + 1 },
   s.roundRobinCounter % s.numExecutors)

/-- Modelled from the spec: the body of the current `System::run` is not
among the sources (only the older header's is); per the spec, `run`
constructs the fiber's control block and then "choose[s] an initial worker
(round-robin counter modulo N)", i.e. it delegates the selection to
`System::schedule`. -/
def runSelectWorker (s : SchedState) : SchedState × Nat :=
  schedule s

/-- Workers selected by `n` successive fiber starts. -/
def scheduleMany : Nat → SchedState → SchedState × List Nat
  | 0, s => (s, [])
  | n + 1, s =>
    let o := runSelectWorker s
    let out := scheduleMany n o.1
    (out.1, o.2 :: out.2)

/-!
## Helper lemmas about list surgery
-/

theorem getAt_append (xs : List Handler) (y : Handler) (rest : List Handler) :
    (xs ++ y :: rest).get? xs.length = some y := by
  induction xs with
  | nil => rfl
  | cons x xs ih => simpa using ih

theorem eraseAt_append (xs : List Handler) (y : Handler) (rest : List Handler) :
    (xs ++ y :: rest).eraseIdx xs.length = xs ++ rest := by
  induction xs with
  | nil => rfl
  | cons x xs ih => simpa using ih

theorem take_eraseIdx_of_le {α : Type} (m : Nat) :
    ∀ (ys : List α) (n : Nat), m ≤ n → (ys.eraseIdx n).take m = ys.take m := by
  induction m with
  | zero => intro ys n _; simp
  | succ m ih =>
    intro ys n hmn
    cases ys with
    | nil => simp
    | cons y ys =>
      cases n with
      | zero => omega
      | succ n =>
        simp only [List.eraseIdx, List.take]
        rw [ih ys n (Nat.le_of_succ_le_succ hmn)]

/-!
## Behaviour of the destroyed-handler walk in Context::super
-/

/-- The walk never hands back a destroyed handler: the loop in
`Context::super` only stops at a handler whose `isDestroyed()` is false. -/
theorem superWalk_found_live :
    ∀ (it : Nat) (ys ys2 : List Handler) (j : Nat) (h : Handler),
      superWalk ys it = (ys2, j, some h) → h.destroyed = false := by
  intro it
  induction it with
  | zero =>
    intro ys ys2 j h hw
    rw [superWalk] at hw
    cases hg : ys.get? 0 with
    | none => rw [hg] at hw; exact absurd hw (by simp)
    | some h0 =>
      rw [hg] at hw
      by_cases hd : h0.destroyed
      · simp [hd] at hw
      · simp [hd] at hw
        rw [← hw.2.2]
        simpa using hd
  | succ it ih =>
    intro ys ys2 j h hw
    rw [superWalk] at hw
    cases hg : ys.get? (it + 1) with
    | none => rw [hg] at hw; exact absurd hw (by simp)
    | some h0 =>
      rw [hg] at hw
      by_cases hd : h0.destroyed
      · simp [hd] at hw
        exact ih _ _ _ _ hw
      · simp [hd] at hw
        rw [← hw.2.2]
        simpa using hd

theorem mem_take_of_get? {α : Type} :
    ∀ (ys : List α) (n : Nat) (h : α), ys.get? n = some h → h ∈ ys.take (n + 1) := by
  intro ys
  induction ys with
  | nil => intro n h hg; simp at hg
  | cons a ys ih =>
    intro n h hg
    cases n with
    | zero =>
      injection hg with hg
      subst hg
      simp
    | succ n =>
      simp only [List.get?] at hg
      simpa using Or.inr (ih n h hg)

/-- The handler found by the walk was among the first `it + 1` handlers of
the stack (at or before the walk's starting position). -/
theorem superWalk_found_take :
    ∀ (it : Nat) (ys ys2 : List Handler) (j : Nat) (h : Handler),
      superWalk ys it = (ys2, j, some h) → h ∈ ys.take (it + 1) := by
  intro it
  induction it with
  | zero =>
    intro ys ys2 j h hw
    rw [superWalk] at hw
    cases hg : ys.get? 0 with
    | none => rw [hg] at hw; exact absurd hw (by simp)
    | some h0 =>
      rw [hg] at hw
      by_cases hd : h0.destroyed
      · simp [hd] at hw
      · simp [hd] at hw
        rw [← hw.2.2]
        exact mem_take_of_get? ys 0 h0 hg
  | succ it ih =>
    intro ys ys2 j h hw
    rw [superWalk] at hw
    cases hg : ys.get? (it + 1) with
    | none => rw [hg] at hw; exact absurd hw (by simp)
    | some h0 =>
      rw [hg] at hw
      by_cases hd : h0.destroyed
      · simp [hd] at hw
        have hmem := ih _ _ _ _ hw
        rw [take_eraseIdx_of_le (it + 1) ys (it + 1) (Nat.le_refl _)] at hmem
        exact List.take_subset_take_left ys (Nat.le_succ _) hmem
      · simp [hd] at hw
        rw [← hw.2.2]
        exact mem_take_of_get? ys (it + 1) h0 hg

/-- The walk only ever removes handlers: its result stack is a sub-collection
of the input stack. -/
theorem superWalk_sub :
    ∀ (it : Nat) (ys : List Handler), (superWalk ys it).1 ⊆ ys := by
  intro it
  induction it with
  | zero =>
    intro ys
    rw [superWalk]
    cases hg : ys.get? 0 with
    | none => simp
    | some h0 =>
      by_cases hd : h0.destroyed
      · simp [hd, List.tail_subset]
      · simp [hd, List.Subset.refl]
  | succ it ih =>
    intro ys
    rw [superWalk]
    cases hg : ys.get? (it + 1) with
    | none => simp
    | some h0 =>
      by_cases hd : h0.destroyed
      · simpa [hd] using (ih (ys.eraseIdx (it + 1))).trans (List.eraseIdx_subset ys (it + 1))
      · simp [hd, List.Subset.refl]

/-- Characterization of the walk when a live handler exists: starting just
below the past-the-end position of `as ++ h :: bs ++ rest` with `bs` all
destroyed and `h` live, the walk erases exactly `bs` and stops at `h`
(index `as.length` of the pruned stack). -/
theorem superWalk_found_eq (bs : List Handler) :
    ∀ (as rest : List Handler) (h : Handler), h.destroyed = false →
      (∀ b ∈ bs, b.destroyed = true) →
      superWalk (as ++ h :: (bs ++ rest)) (as.length + bs.length) =
        (as ++ h :: rest, as.length, some h) := by
  induction bs using List.reverseRecOn with
  | nil =>
    intro as rest h hh _
    simp only [List.nil_append, List.length_nil, Nat.add_zero]
    rw [superWalk, getAt_append]
    simp [hh]
  | append_singleton bs b ih =>
    intro as rest h hh hbs
    have hb : b.destroyed = true := hbs b (by simp)
    have hlist : as ++ h :: ((bs ++ [b]) ++ rest) = (as ++ h :: bs) ++ b :: rest := by simp
    have hidx : as.length + (bs ++ [b]).length = (as ++ h :: bs).length := by
      simp only [List.length_append, List.length_cons, List.length_nil]
    rw [hlist, hidx, superWalk, getAt_append]
    simp only [hb, if_true]
    have hne : (as ++ h :: bs).length ≠ 0 := by simp
    rw [if_neg hne, eraseAt_append]
    have hidx2 : (as ++ h :: bs).length - 1 = as.length + bs.length := by simp
    rw [hidx2]
    have hlist2 : as ++ h :: bs ++ rest = as ++ h :: (bs ++ rest) := by simp
    rw [hlist2]
    exact ih as rest h hh (fun x hx => hbs x (by simp [hx]))

/-- Characterization of the walk when only destroyed handlers remain below
the cursor: the walk erases all of them (the last one via `pop_front`) and
executes nothing. -/
theorem superWalk_none_eq (bs : List Handler) :
    ∀ (rest : List Handler), bs ≠ [] → (∀ b ∈ bs, b.destroyed = true) →
      superWalk (bs ++ rest) (bs.length - 1) = (rest, 0, none) := by
  induction bs using List.reverseRecOn with
  | nil => intro rest hne _; exact absurd rfl hne
  | append_singleton bs b ih =>
    intro rest _ hbs
    have hb : b.destroyed = true := hbs b (by simp)
    by_cases hbe : bs = []
    · subst hbe
      rw [superWalk]
      simp [hb]
    · have hidx : (bs ++ [b]).length - 1 = bs.length := by simp
      have hlist : (bs ++ [b]) ++ rest = bs ++ b :: rest := by simp
      rw [hidx, hlist, superWalk, getAt_append]
      simp only [hb, if_true]
      have hne : bs.length ≠ 0 := by
        simpa using fun hc => hbe (List.length_eq_zero.1 hc)
      rw [if_neg hne, eraseAt_append]
      exact ih rest hbe (fun x hx => hbs x (by simp [hx]))

/-- Every handler stack splits as either all-destroyed, or a prefix, the
last live handler, and an all-destroyed suffix. -/
theorem live_decomposition (zs : List Handler) :
    (∀ h ∈ zs, h.destroyed = true) ∨
    ∃ as h bs, zs = as ++ h :: bs ∧ h.destroyed = false ∧
      ∀ b ∈ bs, b.destroyed = true := by
  induction zs using List.reverseRecOn with
  | nil => exact Or.inl (by simp)
  | append_singleton zs x ih =>
    by_cases hx : x.destroyed = true
    · rcases ih with hall | ⟨as, h, bs, heq, hh, hbs⟩
      · refine Or.inl ?_
        intro h hm
        rcases List.mem_append.1 hm with hm | hm
        · exact hall h hm
        · simp at hm; subst hm; exact hx
      · refine Or.inr ⟨as, h, bs ++ [x], by rw [heq]; simp, hh, ?_⟩
        intro b hb
        rcases List.mem_append.1 hb with hb | hb
        · exact hbs b hb
        · simp at hb; subst hb; exact hx
    · exact Or.inr ⟨zs, x, [], by simp, by simpa using hx, by simp⟩

/-- Full run of chained `super` calls, started (as `handleEvent` starts it)
with the cursor at the past-the-end position: the executed handlers are
exactly the live ones, newest (backmost) first, each with the event
payload; the destroyed ones are pruned from the stack. Stated with the
active prefix `zs` split from an untouched tail `rest` to support the
induction. -/
theorem runSuper_spec :
    ∀ (fuel : Nat) (zs rest : List Handler) (d : Nat), zs.length + 1 ≤ fuel →
      runSuper fuel ⟨zs ++ rest, zs.length, d⟩ =
        ((zs.filter fun h => !h.destroyed).reverse.map (fun h => (h, d)),
          ⟨(zs.filter fun h => !h.destroyed) ++ rest, 0, d⟩) := by
  intro fuel
  induction fuel with
  | zero => intro zs rest d hf; omega
  | succ fuel ih =>
    intro zs rest d hf
    by_cases hz : zs = []
    · subst hz
      simp [runSuper, superStep]
    · have hc : ¬(zs.length = 0) := fun hc0 => hz (List.length_eq_zero.1 hc0)
      rcases live_decomposition zs with hall | ⟨as, h, bs, heq, hh, hbs⟩
      · have hstep : superStep ⟨zs ++ rest, zs.length, d⟩ = (⟨rest, 0, d⟩, none) := by
          simp only [superStep]
          rw [if_neg hc, superWalk_none_eq zs rest hz hall]
        have hfil : zs.filter (fun h => !h.destroyed) = [] := by
          rw [List.filter_eq_nil_iff]
          intro a ha
          simp [hall a ha]
        simp only [runSuper, hstep, hfil]
        simp
      · have hidx : zs.length - 1 = as.length + bs.length := by
          rw [heq]
          simp
        have hlist : zs ++ rest = as ++ h :: (bs ++ rest) := by
          rw [heq]
          simp
        have hstep : superStep ⟨zs ++ rest, zs.length, d⟩ =
            (⟨as ++ h :: rest, as.length, d⟩, some (h, d)) := by
          simp only [superStep]
          rw [if_neg hc, hidx, hlist, superWalk_found_eq bs as rest h hh hbs]
        have hfuel2 : as.length + 1 ≤ fuel := by
          have : zs.length = as.length + bs.length + 1 := by rw [heq]; simp; omega
          omega
        simp only [runSuper, hstep]
        rw [ih as (h :: rest) d hfuel2]
        have hfb : bs.filter (fun x => !x.destroyed) = [] := by
          rw [List.filter_eq_nil_iff]
          intro a ha
          simp [hbs a ha]
        rw [heq]
        simp [List.filter_append, hfb, hh]

/-!
## Theorems
-/

/-- C3: For every event dispatch, `Context::super()` executes each live
(non-destroyed) handler at most once, in reverse binding order — newest
bound handler first, since `bind` appends at the back and the cursor starts
past-the-end and moves toward the front — skipping and lazily pruning
destroyed handlers: (1) when the cursor has reached the front of the stack,
`super()` is a no-op; (2) each call executes at most one handler, which is
live, and passes it the event payload; (3) a full chain of `super` calls
started with the cursor past-the-end executes exactly the live handlers,
newest first, each once with the payload, and leaves the stack pruned of
destroyed handlers. -/
theorem super_executes_live_newest_first (s : SuperState) (fuel : Nat)
    (hcur : s.cursor = s.handlers.length) (hfuel : s.handlers.length + 1 ≤ fuel) :
    (∀ t : SuperState, t.cursor = 0 → superStep t = (t, none)) ∧
    (∀ (t st : SuperState) (h : Handler) (d2 : Nat),
      superStep t = (st, some (h, d2)) → h.destroyed = false ∧ d2 = t.data) ∧
    (runSuper fuel s).1 =
      ((s.handlers.filter fun h => !h.destroyed).reverse.map fun h => (h, s.data)) ∧
    (runSuper fuel s).2.handlers = (s.handlers.filter fun h => !h.destroyed) := by
  refine ⟨?_, ?_, ?_, ?_⟩
  · intro t ht
    simp only [superStep, ht]
    rfl
  · intro t st h d2 hst
    simp only [superStep] at hst
    by_cases ht : t.cursor = 0
    · rw [if_pos ht] at hst
      simp at hst
    · rw [if_neg ht] at hst
      rcases hw : superWalk t.handlers (t.cursor - 1) with ⟨hs2, it, oh⟩
      rw [hw] at hst
      cases oh with
      | none => simp at hst
      | some h0 =>
        simp only [Prod.mk.injEq, Option.some.injEq] at hst
        obtain ⟨-, hh0, hd⟩ := hst
        subst hh0
        exact ⟨superWalk_found_live _ _ _ _ _ hw, hd.symm⟩
  · cases s with
    | mk hs c d =>
      simp only at hcur
      subst hcur
      have := runSuper_spec fuel hs [] d (by simpa using hfuel)
      simpa using congrArg Prod.fst this
  · cases s with
    | mk hs c d =>
      simp only at hcur
      subst hcur
      have := runSuper_spec fuel hs [] d (by simpa using hfuel)
      have h2 := congrArg (fun o => o.2.handlers) this
      simpa using h2

/-- Witness for C3 at a concrete dispatch: stack with a destroyed handler
between two live ones, cursor past-the-end, fuel 4; the chain executes the
two live handlers newest first with the payload and prunes the stack. -/
theorem super_executes_live_newest_first_witness :
    ((3 : Nat) =
      ([⟨1, false, .plain⟩, ⟨2, true, .plain⟩,
        (⟨3, false, .plain⟩ : Handler)]).length) ∧
    (([⟨1, false, .plain⟩, ⟨2, true, .plain⟩,
        (⟨3, false, .plain⟩ : Handler)]).length + 1 ≤ 4) ∧
    (runSuper 4 ⟨[⟨1, false, .plain⟩, ⟨2, true, .plain⟩, ⟨3, false, .plain⟩], 3, 9⟩).1 =
      (([⟨1, false, .plain⟩, ⟨2, true, .plain⟩,
          (⟨3, false, .plain⟩ : Handler)].filter fun h => !h.destroyed).reverse.map
        fun h => (h, 9)) ∧
    (runSuper 4 ⟨[⟨1, false, .plain⟩, ⟨2, true, .plain⟩, ⟨3, false, .plain⟩], 3, 9⟩).2.handlers =
      ([⟨1, false, .plain⟩, ⟨2, true, .plain⟩,
          (⟨3, false, .plain⟩ : Handler)].filter fun h => !h.destroyed) :=
  ⟨rfl, by decide,
    (super_executes_live_newest_first
      ⟨[⟨1, false, .plain⟩, ⟨2, true, .plain⟩, ⟨3, false, .plain⟩], 3, 9⟩ 4 rfl
      (by decide)).2.2.1,
    (super_executes_live_newest_first
      ⟨[⟨1, false, .plain⟩, ⟨2, true, .plain⟩, ⟨3, false, .plain⟩], 3, 9⟩ 4 rfl
      (by decide)).2.2.2⟩

/-- C7: `Context::handleEvent(event)` looks up the handler block for
`event.path`: if no block exists the event is dropped without executing
any handler; otherwise destroyed handlers are popped off the tail of the
block, and if the block becomes empty the map entry for that path is
erased and the dispatch returns without executing a handler. -/
theorem handleEvent_drop_and_prune (ctx : EvContext) (e : PendingEvent) :
    (lookupBlock ctx e.path = none → handleEvent ctx e = ⟨ctx, [], none⟩) ∧
    (∀ blk, lookupBlock ctx e.path = some blk → dropDestroyedBack blk = [] →
      handleEvent ctx e = ⟨eraseBlock ctx e.path, [], none⟩) := by
  constructor
  · intro hnone
    unfold handleEvent
    rw [hnone]
  · intro blk hsome hdrop
    unfold handleEvent
    rw [hsome]
    simp [hdrop]

/-- Witness for C7: a path with no handler block is dropped; a block whose
handlers are all destroyed is pruned to empty and its entry erased. -/
theorem handleEvent_drop_and_prune_witness :
    lookupBlock [(3, [⟨0, true, .plain⟩])] (7 : Nat) = none ∧
    handleEvent [(3, [⟨0, true, .plain⟩])] ⟨7, 1⟩ =
      ⟨[(3, [⟨0, true, .plain⟩])], [], none⟩ ∧
    lookupBlock [(3, [⟨0, true, .plain⟩])] (3 : Nat) = some [⟨0, true, .plain⟩] ∧
    dropDestroyedBack [⟨0, true, .plain⟩] = [] ∧
    handleEvent [(3, [⟨0, true, .plain⟩])] ⟨3, 5⟩ =
      ⟨eraseBlock [(3, [⟨0, true, .plain⟩])] 3, [], none⟩ :=
  ⟨by decide,
    (handleEvent_drop_and_prune [(3, [⟨0, true, .plain⟩])] ⟨7, 1⟩).1 (by decide),
    by decide, by decide,
    (handleEvent_drop_and_prune [(3, [⟨0, true, .plain⟩])] ⟨3, 5⟩).2
      [⟨0, true, .plain⟩] (by decide) (by decide)⟩

/-!
## Association-list lemmas for the handler table
-/

theorem lookupBlock_mem :
    ∀ (ctx : EvContext) (p : Nat) (blk : List Handler),
      lookupBlock ctx p = some blk → (p, blk) ∈ ctx := by
  intro ctx
  induction ctx with
  | nil => intro p blk h; simp [lookupBlock] at h
  | cons pr rest ih =>
    intro p blk h
    rcases pr with ⟨q, b⟩
    simp only [lookupBlock] at h
    by_cases hq : q = p
    · rw [if_pos hq] at h
      injection h with h
      subst hq
      subst h
      simp
    · rw [if_neg hq] at h
      exact List.mem_cons_of_mem _ (ih p blk h)

theorem lookupBlock_set_self :
    ∀ (ctx : EvContext) (p : Nat) (blk : List Handler),
      lookupBlock (setBlock ctx p blk) p = some blk := by
  intro ctx
  induction ctx with
  | nil => intro p blk; simp [setBlock, lookupBlock]
  | cons pr rest ih =>
    intro p blk
    rcases pr with ⟨q, b⟩
    simp only [setBlock]
    by_cases hq : q = p
    · rw [if_pos hq]
      simp [lookupBlock]
    · rw [if_neg hq]
      simp only [lookupBlock, if_neg hq]
      exact ih p blk

theorem lookupBlock_set_ne :
    ∀ (ctx : EvContext) (q p : Nat) (blk : List Handler), q ≠ p →
      lookupBlock (setBlock ctx q blk) p = lookupBlock ctx p := by
  intro ctx
  induction ctx with
  | nil => intro q p blk hqp; simp [setBlock, lookupBlock, if_neg hqp]
  | cons pr rest ih =>
    intro q p blk hqp
    rcases pr with ⟨q2, b⟩
    simp only [setBlock]
    by_cases hq : q2 = q
    · rw [if_pos hq]
      subst hq
      simp [lookupBlock, if_neg hqp]
    · rw [if_neg hq]
      simp only [lookupBlock]
      by_cases hq2 : q2 = p
      · rw [if_pos hq2, if_pos hq2]
      · rw [if_neg hq2, if_neg hq2]
        exact ih q p blk hqp

theorem lookupBlock_erase_ne :
    ∀ (ctx : EvContext) (q p : Nat), q ≠ p →
      lookupBlock (eraseBlock ctx q) p = lookupBlock ctx p := by
  intro ctx
  induction ctx with
  | nil => intro q p _; rfl
  | cons pr rest ih =>
    intro q p hqp
    rcases pr with ⟨q2, b⟩
    simp only [eraseBlock]
    by_cases hq : q2 = q
    · rw [if_pos hq]
      subst hq
      simp [lookupBlock, if_neg (fun hc => hqp hc)]
    · rw [if_neg hq]
      simp only [lookupBlock]
      by_cases hq2 : q2 = p
      · rw [if_pos hq2, if_pos hq2]
      · rw [if_neg hq2, if_neg hq2]
        exact ih q p hqp

theorem setBlock_mem :
    ∀ (ctx : EvContext) (q : Nat) (blk : List Handler) (pr : Nat × List Handler),
      pr ∈ setBlock ctx q blk → pr = (q, blk) ∨ pr ∈ ctx := by
  intro ctx
  induction ctx with
  | nil => intro q blk pr h; simpa [setBlock] using h
  | cons pr0 rest ih =>
    intro q blk pr h
    rcases pr0 with ⟨q2, b⟩
    simp only [setBlock] at h
    by_cases hq : q2 = q
    · rw [if_pos hq] at h
      rcases List.mem_cons.1 h with h | h
      · exact Or.inl h
      · exact Or.inr (List.mem_cons_of_mem _ h)
    · rw [if_neg hq] at h
      rcases List.mem_cons.1 h with h | h
      · exact Or.inr (by simp [h])
      · rcases ih q blk pr h with h | h
        · exact Or.inl h
        · exact Or.inr (List.mem_cons_of_mem _ h)

theorem eraseBlock_mem :
    ∀ (ctx : EvContext) (q : Nat) (pr : Nat × List Handler),
      pr ∈ eraseBlock ctx q → pr ∈ ctx := by
  intro ctx
  induction ctx with
  | nil => intro q pr h; simp [eraseBlock] at h
  | cons pr0 rest ih =>
    intro q pr h
    rcases pr0 with ⟨q2, b⟩
    simp only [eraseBlock] at h
    by_cases hq : q2 = q
    · rw [if_pos hq] at h
      exact List.mem_cons_of_mem _ h
    · rw [if_neg hq] at h
      rcases List.mem_cons.1 h with h | h
      · simp [h]
      · exact List.mem_cons_of_mem _ (ih q pr h)

/-!
## Lemmas about the destroyed-tail pruning and the dispatch bodies
-/

theorem dropDestroyedBack_sub (l : List Handler) : dropDestroyedBack l ⊆ l := by
  unfold dropDestroyedBack
  intro x hx
  rw [List.mem_reverse] at hx
  have := List.dropWhile_subset (l := l.reverse) (p := fun h => h.destroyed) hx
  rwa [List.mem_reverse] at this

theorem dropDestroyedBack_snoc_live (l : List Handler) (h : Handler)
    (hh : h.destroyed = false) : dropDestroyedBack (l ++ [h]) = l ++ [h] := by
  unfold dropDestroyedBack
  rw [List.reverse_append]
  simp only [List.reverse_cons, List.reverse_nil, List.nil_append, List.singleton_append]
  rw [List.dropWhile_cons_of_neg (by simp [hh])]
  simp

/-- A dispatch over a stack whose handlers below the cursor are all plain
never throws an `EventFired` transfer. -/
theorem superExec_plain_take (fuel : Nat) (hs : List Handler) (c d : Nat)
    (hplain : ∀ h ∈ hs.take c, h.behavior = Behavior.plain) :
    (superExec fuel hs c d).fired = none := by
  cases fuel with
  | zero => rfl
  | succ fuel =>
    simp only [superExec]
    by_cases hc : c = 0
    · rw [if_pos hc]
    · rw [if_neg hc]
      rcases hw : superWalk hs (c - 1) with ⟨hs2, it, oh⟩
      cases oh with
      | none => rfl
      | some h =>
        have hmem : h ∈ hs.take c := by
          have := superWalk_found_take (c - 1) hs hs2 it h hw
          have hc1 : c - 1 + 1 = c := by omega
          rwa [hc1] at this
        have hb : h.behavior = Behavior.plain := hplain h hmem
        dsimp only
        rw [hb]

/-- A dispatch only removes handlers from the stack, never adds one. -/
theorem superExec_handlers_sub :
    ∀ (fuel : Nat) (hs : List Handler) (c d : Nat),
      (superExec fuel hs c d).handlers ⊆ hs := by
  intro fuel
  induction fuel with
  | zero => intro hs c d; exact List.Subset.refl hs
  | succ fuel ih =>
    intro hs c d
    simp only [superExec]
    by_cases hc : c = 0
    · rw [if_pos hc]
      exact List.Subset.refl hs
    · rw [if_neg hc]
      rcases hw : superWalk hs (c - 1) with ⟨hs2, it, oh⟩
      have hsub : hs2 ⊆ hs := by
        have := superWalk_sub (c - 1) hs
        rw [hw] at this
        exact this
      cases oh with
      | none => exact hsub
      | some h =>
        dsimp only
        cases hb : h.behavior with
        | plain => exact hsub
        | awaiter =>
          rcases hfo : (superExec fuel hs2 it d).fired with _ | v
          all_goals
            simp only [hfo]
            exact (ih hs2 it d).trans hsub

/-- Dispatch of an event to a block consisting of plain handlers followed
by the freshly bound awaiter handler: the walk finds the awaiter (the
newest binding), which calls `super()` — a no-throw dispatch over the
plain prefix — and then throws `EventFired` carrying the payload. -/
theorem superExec_awaiter_fires (zs : List Handler) (hid d fl : Nat)
    (hplain : ∀ h ∈ zs, h.behavior = Behavior.plain) :
    (superExec (fl + 1) (zs ++ [⟨hid, false, .awaiter⟩])
      (zs.length + 1) d).fired = some d := by
  have hw : superWalk (zs ++ [⟨hid, false, .awaiter⟩]) zs.length
      = (zs ++ [⟨hid, false, .awaiter⟩], zs.length, some ⟨hid, false, .awaiter⟩) := by
    have := superWalk_found_eq [] zs [] ⟨hid, false, Behavior.awaiter⟩ rfl (by simp)
    simpa using this
  have hin : (superExec fl (zs ++ [⟨hid, false, .awaiter⟩])
      zs.length d).fired = none := by
    apply superExec_plain_take
    intro h hm
    rw [List.take_left] at hm
    exact hplain h hm
  simp only [superExec]
  rw [if_neg (by omega)]
  have hidx : zs.length + 1 - 1 = zs.length := by omega
  rw [hidx, hw]
  dsimp only
  rw [hin]

/-- Dispatch of an event whose path carries the awaiter block fires the
`EventFired` transfer with the event's payload. -/
theorem handleEvent_await_fires (ctx1 : EvContext) (p hid : Nat) (e : PendingEvent)
    (hpath : e.path = p) (zs : List Handler)
    (hlb : lookupBlock ctx1 p = some (zs ++ [⟨hid, false, .awaiter⟩]))
    (hplain : ∀ h ∈ zs, h.behavior = Behavior.plain) :
    (handleEvent ctx1 e).fired = some e.data := by
  unfold handleEvent
  rw [hpath, hlb]
  have hdd : dropDestroyedBack (zs ++ [(⟨hid, false, .awaiter⟩ : Handler)])
      = zs ++ [⟨hid, false, .awaiter⟩] :=
    dropDestroyedBack_snoc_live zs ⟨hid, false, .awaiter⟩ rfl
  dsimp only
  rw [hdd, if_neg (by simp)]
  dsimp only
  simp only [List.length_append, List.length_cons, List.length_nil, Nat.zero_add]
  exact superExec_awaiter_fires zs hid e.data (zs.length + 1) hplain

/-- Dispatch of an event for a different path than the awaited one, on a
context whose other blocks are all plain: nothing fires, and the awaited
path's block and the all-plain shape of the other blocks are preserved. -/
theorem handleEvent_plain_no_fire (ctx1 : EvContext) (e : PendingEvent) (p hid : Nat)
    (hne : e.path ≠ p)
    (hinv1 : ∃ zs, (∀ h ∈ zs, h.behavior = Behavior.plain) ∧
      lookupBlock ctx1 p = some (zs ++ [⟨hid, false, .awaiter⟩]))
    (hinv2 : ∀ pr ∈ ctx1, pr.1 ≠ p → ∀ h ∈ pr.2, h.behavior = Behavior.plain) :
    (handleEvent ctx1 e).fired = none ∧
    (∃ zs, (∀ h ∈ zs, h.behavior = Behavior.plain) ∧
      lookupBlock (handleEvent ctx1 e).ctx p = some (zs ++ [⟨hid, false, .awaiter⟩])) ∧
    (∀ pr ∈ (handleEvent ctx1 e).ctx, pr.1 ≠ p →
      ∀ h ∈ pr.2, h.behavior = Behavior.plain) := by
  unfold handleEvent
  cases hq : lookupBlock ctx1 e.path with
  | none =>
    refine ⟨?_, hinv1, hinv2⟩
    rfl
  | some blk =>
    have hblk : ∀ h ∈ blk, h.behavior = Behavior.plain :=
      hinv2 (e.path, blk) (lookupBlock_mem ctx1 e.path blk hq) hne
    by_cases hemp : (dropDestroyedBack blk).isEmpty
    · simp only [if_pos hemp]
      refine ⟨trivial, ?_, ?_⟩
      · obtain ⟨zs, hzs, hlb⟩ := hinv1
        exact ⟨zs, hzs, by rwa [lookupBlock_erase_ne ctx1 e.path p hne]⟩
      · intro pr hpr hprp
        exact hinv2 pr (eraseBlock_mem ctx1 e.path pr hpr) hprp
    · simp only [if_neg hemp]
      have hplain1 : ∀ h ∈ dropDestroyedBack blk, h.behavior = Behavior.plain :=
        fun h hm => hblk h (dropDestroyedBack_sub blk hm)
      refine ⟨?_, ?_, ?_⟩
      · exact superExec_plain_take _ _ _ _
          (fun h hm => hplain1 h (List.take_subset _ _ hm))
      · obtain ⟨zs, hzs, hlb⟩ := hinv1
        exact ⟨zs, hzs, by rwa [lookupBlock_set_ne ctx1 e.path p _ hne]⟩
      · intro pr hpr hprp
        rcases setBlock_mem ctx1 e.path _ pr hpr with hpr2 | hpr2
        · subst hpr2
          intro h hm
          exact hplain1 h (superExec_handlers_sub _ _ _ _ hm)
        · exact hinv2 pr hpr2 hprp

/-- The `yield` dispatch loop started with the awaiter bound: dispatching
events for other paths neither fires nor disturbs the awaited block, and
the first event for the awaited path throws `EventFired` with its payload,
which exits the loop. -/
theorem yieldDispatch_await (p hid : Nat) :
    ∀ (es : List PendingEvent) (ctx1 : EvContext) (ev : PendingEvent),
      (∃ zs, (∀ h ∈ zs, h.behavior = Behavior.plain) ∧
        lookupBlock ctx1 p = some (zs ++ [⟨hid, false, .awaiter⟩])) →
      (∀ pr ∈ ctx1, pr.1 ≠ p → ∀ h ∈ pr.2, h.behavior = Behavior.plain) →
      es.find? (fun e => e.path == p) = some ev →
      (yieldDispatch ctx1 es).2 = some ev.data := by
  intro es
  induction es with
  | nil => intro ctx1 ev _ _ hf; simp [List.find?] at hf
  | cons e rest ih =>
    intro ctx1 ev hinv1 hinv2 hf
    by_cases hp : e.path = p
    · rw [List.find?_cons_of_pos _ (by simp [hp])] at hf
      injection hf with hf
      subst hf
      obtain ⟨zs, hzs, hlb⟩ := hinv1
      have hfire := handleEvent_await_fires ctx1 p hid e hp zs hlb hzs
      simp only [yieldDispatch, hfire]
    · rw [List.find?_cons_of_neg _ (by simp [hp])] at hf
      have hstep := handleEvent_plain_no_fire ctx1 e p hid hp hinv1 hinv2
      simp only [yieldDispatch, hstep.1]
      exact ih (handleEvent ctx1 e).ctx ev hstep.2.1 hstep.2.2 hf

/-- C4: `Event<A>::await` binds a handler for the event's path that first
calls `super()` and then throws an `EventFired` control transfer carrying
the received value; the subsequent `yield()` is exited by that throw, the
transfer is caught in the awaiting frame, and `await` returns the value
that was emitted for that path: on a context whose pre-existing handlers
are all plain, `await` returns the payload of the first mailbox event
whose path is the awaited one. -/
theorem await_returns_emitted_value (ctx : EvContext) (p hid : Nat)
    (es : List PendingEvent) (ev : PendingEvent)
    (hplain : ∀ pr ∈ ctx, ∀ h ∈ pr.2, h.behavior = Behavior.plain)
    (hfind : es.find? (fun e => e.path == p) = some ev) :
    awaitEvent ctx p hid es = some ev.data := by
  unfold awaitEvent
  apply yieldDispatch_await p hid es _ ev ?_ ?_ hfind
  · unfold bindHandler
    cases hlb : lookupBlock ctx p with
    | none =>
      refine ⟨[], by simp, ?_⟩
      have := lookupBlock_set_self ctx p [⟨hid, false, .awaiter⟩]
      simpa using this
    | some blk =>
      refine ⟨blk, ?_, ?_⟩
      · intro h hm
        exact hplain (p, blk) (lookupBlock_mem ctx p blk hlb) h hm
      · exact lookupBlock_set_self ctx p (blk ++ [⟨hid, false, .awaiter⟩])
  · unfold bindHandler
    cases hlb : lookupBlock ctx p with
    | none =>
      intro pr hpr hprp
      rcases setBlock_mem ctx p _ pr hpr with hpr2 | hpr2
      · rw [hpr2] at hprp
        exact absurd rfl hprp
      · exact hplain pr hpr2
    | some blk =>
      intro pr hpr hprp
      rcases setBlock_mem ctx p _ pr hpr with hpr2 | hpr2
      · rw [hpr2] at hprp
        exact absurd rfl hprp
      · exact hplain pr hpr2

/-- Witness for C4 at a concrete context and mailbox: one plain handler
bound on the awaited path 2, mailbox holding an event for path 3 and then
the awaited event with payload 42; await returns 42. -/
theorem await_returns_emitted_value_witness :
    ([⟨3, 50⟩, (⟨2, 42⟩ : PendingEvent)].find? (fun e => e.path == 2) = some ⟨2, 42⟩) ∧
    awaitEvent [(2, [⟨1, false, .plain⟩])] 2 9 [⟨3, 50⟩, ⟨2, 42⟩] = some 42 :=
  ⟨by decide,
    await_returns_emitted_value [(2, [⟨1, false, .plain⟩])] 2 9 [⟨3, 50⟩, ⟨2, 42⟩]
      ⟨2, 42⟩ (by decide) (by decide)⟩

/-- C1: For every event dequeued from the mailbox during `Context::process()`
(and during the re-check drain inside `Context::yield()`), the event's
`freeData` function is invoked on its data exactly once, on both the normal
exit path and the exceptional exit path of `handleEvent`: the trace of
`freeData` invocations of the drain loop is exactly the data of the
dequeued events, one invocation each regardless of where (or whether) a
handler threw, and the single-event re-check wrapper frees exactly once on
either path. -/
theorem freeData_exactly_once_per_dequeue (handle : PendingEvent → Except Nat Unit)
    (es : List PendingEvent) (e : PendingEvent) :
    (processLoop handle es).2.1 = (processLoop handle es).1.map PendingEvent.data ∧
    (handleFree handle e).2 = [e.data] := by
  constructor
  · induction es with
    | nil => simp [processLoop]
    | cons a rest ih =>
      simp only [processLoop]
      cases h : handle a with
      | error err => simp
      | ok u => cases u; simp [ih]
  · unfold handleFree
    cases h : handle e with
    | error err => rfl
    | ok u => cases u; rfl

/-- C2: In `Context::yield()` (bound to an executor), after draining the
mailbox the control block's mutex is acquired and the mailbox re-checked:
every iteration that observes a non-empty mailbox under the mutex releases
it and handles the dequeued event, and an iteration suspends the fiber only
when the mailbox was observed empty under the mutex — the fiber never
suspends with a pending event left in its mailbox. -/
theorem yield_suspends_only_when_mailbox_empty (sched : List (List PendingEvent))
    (m : List PendingEvent) :
    ∀ r ∈ yieldTrace true sched m,
      (r.act = YieldAct.suspended → r.observed = some []) ∧
      (∀ e rest, r.observed = some (e :: rest) → r.act = YieldAct.handledLate e) := by
  induction sched generalizing m with
  | nil => intro r hr; simp [yieldTrace] at hr
  | cons a sched ih =>
    intro r hr
    cases a with
    | nil =>
      simp [yieldTrace] at hr
      subst hr
      constructor
      · intro _; rfl
      · intro e rest h; simp at h
    | cons e rest =>
      simp only [yieldTrace, if_pos rfl] at hr
      rcases List.mem_cons.1 hr with h | h
      · subst h
        constructor
        · intro hact; cases hact
        · intro e2 rest2 hobs
          injection hobs with hobs
          injection hobs with h1 h2
          rw [h1]
      · exact ih rest r h

/-- Witness for C2 at a concrete schedule: the suspending iteration is in
the trace, and its mailbox was observed empty under the mutex. -/
theorem yield_suspends_only_when_mailbox_empty_witness :
    (⟨[⟨1, 2⟩], some [], .suspended⟩ : YieldRec) ∈ yieldTrace true [[]] [⟨1, 2⟩] ∧
    (⟨[⟨1, 2⟩], some [], .suspended⟩ : YieldRec).observed = some [] :=
  ⟨by decide,
    (yield_suspends_only_when_mailbox_empty [[]] [⟨1, 2⟩]
      ⟨[⟨1, 2⟩], some [], .suspended⟩ (by decide)).1 rfl⟩

/-- C9: When the fiber's control block is not bound to an executor, each
iteration of the `Context::yield()` loop sleeps for 1 millisecond instead
of performing the enable/suspend handshake: every record of the unbound
trace is a 1 ms sleep (in particular never a suspension and never a
locked re-check). -/
theorem unbound_yield_sleeps_one_ms (sched : List (List PendingEvent))
    (m : List PendingEvent) :
    ∀ r ∈ yieldTrace false sched m,
      r.act = YieldAct.slept 1 ∧ r.observed = none := by
  induction sched generalizing m with
  | nil => intro r hr; simp [yieldTrace] at hr
  | cons a sched ih =>
    intro r hr
    rw [show yieldTrace false (a :: sched) m
        = ⟨m, none, .slept 1⟩ :: yieldTrace false sched a from rfl] at hr
    rcases List.mem_cons.1 hr with h | h
    · subst h; exact ⟨rfl, rfl⟩
    · exact ih a r h

/-- Witness for C9 at a concrete schedule: the unbound iteration is in the
trace and it slept for 1 ms. -/
theorem unbound_yield_sleeps_one_ms_witness :
    (⟨[⟨1, 2⟩], none, .slept 1⟩ : YieldRec) ∈ yieldTrace false [[⟨5, 7⟩]] [⟨1, 2⟩] ∧
    (⟨[⟨1, 2⟩], none, .slept 1⟩ : YieldRec).act = YieldAct.slept 1 :=
  ⟨by decide,
    (unbound_yield_sleeps_one_ms [[⟨5, 7⟩]] [⟨1, 2⟩]
      ⟨[⟨1, 2⟩], none, .slept 1⟩ (by decide)).1⟩

/-- C10: `Context::yield()` never returns normally to its caller: its body
is an unconditional infinite loop, so for any handler behaviour, executor
binding, fuel and schedule of arrivals the loop either propagates an
exception thrown by a handler or is still looping — it never produces a
normal return. -/
theorem yield_never_returns_normally (handle : PendingEvent → Except Nat Unit)
    (hasExecutor : Bool) (fuel : Nat) (m : List PendingEvent)
    (sched : List (List PendingEvent)) :
    (∃ e, yieldControl handle hasExecutor fuel m sched = ControlResult.threw e) ∨
      yieldControl handle hasExecutor fuel m sched = ControlResult.stillLooping := by
  induction fuel generalizing m sched with
  | zero => exact Or.inr rfl
  | succ fuel ih =>
    simp only [yieldControl]
    cases h : yieldIterBody handle hasExecutor m (sched.headD []) with
    | error e => exact Or.inl ⟨e, rfl⟩
    | ok m2 => exact ih m2 sched.tail

theorem isDropStep_succ (op : SysOp) (ops : List SysOp) (r0 i : Nat) :
    isDropStep (op :: ops) r0 (i + 1) = isDropStep ops (applyOp r0 op) i := rfl

theorem dropSteps_cons (op : SysOp) (ops : List SysOp) (r0 : Nat) :
    dropSteps (op :: ops) r0 =
      (if isDropStep (op :: ops) r0 0 then [0] else []) ++
        (dropSteps ops (applyOp r0 op)).map Nat.succ := by
  unfold dropSteps
  rw [List.length_cons, List.range_succ_eq_map, List.filter_cons, List.filter_map]
  have hp : (isDropStep (op :: ops) r0 ∘ Nat.succ) = isDropStep ops (applyOp r0 op) := rfl
  rw [hp]
  by_cases hc : isDropStep (op :: ops) r0 0
  · rw [if_pos hc, if_pos hc]
    rfl
  · rw [if_neg hc, if_neg hc]
    rfl

/-- The emission count of `System::fiberFinished` over a trace equals the
number of drop-to-zero steps of the running counter. -/
theorem sysRun_emissions_eq_dropSteps (ops : List SysOp) :
    ∀ r0 : Nat, (sysRun ops r0).2 = (dropSteps ops r0).length := by
  induction ops with
  | nil => intro r0; rfl
  | cons op ops ih =>
    intro r0
    rw [dropSteps_cons, List.length_append, List.length_map]
    cases op with
    | start =>
      have h0 : isDropStep (SysOp.start :: ops) r0 0 = false := by
        simp [isDropStep]
      rw [h0]
      simpa [sysRun, applyOp] using ih (r0 + 1)
    | finish =>
      have h0 : isDropStep (SysOp.finish :: ops) r0 0 = (r0 == 1) := by
        simp [isDropStep, runningAfter]
      rw [h0]
      by_cases hr : r0 = 1
      · simp only [sysRun, hr]
        simpa [applyOp] using ih 0
      · simp only [sysRun, if_neg hr]
        have : (r0 == 1) = false := by simpa using hr
        rw [this]
        simpa [applyOp] using ih (r0 - 1)

/-- C5 (amended): `allFibersFinished` is emitted by `System::fiberFinished`
exactly at the steps where the running-fiber counter drops from 1 to 0 —
the emission count over any trace equals the number of such drops, every
emission happens at a `fiberFinished` call that read the counter at 1 and
left it at 0 (so it never fires before the counter has reached zero), and
in particular a trace in which the counter drains to zero exactly once
emits exactly once. -/
theorem allFibersFinished_fires_on_each_drop (ops : List SysOp) (r0 : Nat) :
    (sysRun ops r0).2 = (dropSteps ops r0).length ∧
    ∀ i ∈ dropSteps ops r0,
      ops.get? i = some SysOp.finish ∧
      runningAfter (ops.take i) r0 = 1 ∧
      runningAfter (ops.take (i + 1)) r0 = 0 := by
  refine ⟨sysRun_emissions_eq_dropSteps ops r0, ?_⟩
  intro i hi
  have hmem := List.mem_filter.1 hi
  have hprop := hmem.2
  simp only [isDropStep, Bool.and_eq_true, beq_iff_eq] at hprop
  refine ⟨hprop.1, hprop.2, ?_⟩
  have hg : ops[i]? = some SysOp.finish := by
    rw [← List.get?_eq_getElem?]
    exact hprop.1
  rw [List.take_succ, hg]
  unfold runningAfter
  rw [List.foldl_append]
  have : (List.take i ops).foldl applyOp r0 = 1 := hprop.2
  rw [this]
  rfl

/-- Witness for C5 (amended) at a concrete trace: one start, one finish;
the single emission happens at the finish step, where the counter was 1
before and 0 after. -/
theorem allFibersFinished_fires_on_each_drop_witness :
    (1 ∈ dropSteps [SysOp.start, SysOp.finish] 0) ∧
    (sysRun [SysOp.start, SysOp.finish] 0).2 =
      (dropSteps [SysOp.start, SysOp.finish] 0).length ∧
    [SysOp.start, SysOp.finish].get? 1 = some SysOp.finish ∧
    runningAfter ([SysOp.start, SysOp.finish].take 1) 0 = 1 ∧
    runningAfter ([SysOp.start, SysOp.finish].take 2) 0 = 0 :=
  ⟨by decide,
    (allFibersFinished_fires_on_each_drop [SysOp.start, SysOp.finish] 0).1,
    (allFibersFinished_fires_on_each_drop [SysOp.start, SysOp.finish] 0).2 1 (by decide)⟩

/-- C5 counterexample to the claim as stated: `allFibersFinished` does not
fire exactly once per system lifetime. In the lifetime trace
start, finish, start, finish (run a fiber, let it finish, run another, let
it finish — the system is never shut down in between), the counter drops
to zero twice and `fiberFinished` emits `allFibersFinished` twice. -/
theorem allFibersFinished_fires_twice_in_one_lifetime :
    (sysRun [SysOp.start, SysOp.finish, SysOp.start, SysOp.finish] 0).2 = 2 ∧
    ¬ (sysRun [SysOp.start, SysOp.finish, SysOp.start, SysOp.finish] 0).2 ≤ 1 := by
  decide

/-- C6 (part 1): once the `shuttingDown` flag is set, every subsequent call
to `System::run` returns a dead-letter reference and allocates nothing. -/
theorem runMany_shutdown (n : Nat) (s : SysState) (h : s.shuttingDown = true) :
    runMany n s = (s, List.replicate n RunRef.deadLetter) := by
  induction n generalizing s with
  | zero => rfl
  | succ n ih =>
    simp only [runMany, sysRunFiber, h]
    simp [ih s h, List.replicate]

/-- C6: After `shutdown()` has been called, every subsequent call to
`System::run` returns a dead-letter `FiberRef` and allocates no new control
block; when the system is not shutting down, `run` constructs the fiber,
allocates a control block, and returns a local reference to it. -/
theorem run_after_shutdown_dead_letters (s : SysState) (n : Nat)
    (h : s.shuttingDown = false) :
    ((runMany n (sysShutdown s)).1.blocksAllocated = s.blocksAllocated ∧
      ∀ ref ∈ (runMany n (sysShutdown s)).2, ref = RunRef.deadLetter) ∧
    sysRunFiber s =
      ({ shuttingDown := false, blocksAllocated := s.blocksAllocated + 1 },
        RunRef.localRef s.blocksAllocated) := by
  refine ⟨⟨?_, ?_⟩, ?_⟩
  · rw [runMany_shutdown n (sysShutdown s) rfl]
    simp [sysShutdown]
  · rw [runMany_shutdown n (sysShutdown s) rfl]
    intro ref href
    exact List.eq_of_mem_replicate href
  · cases s with
    | mk sd blocks =>
      simp at h
      subst h
      rfl

/-- Witness for C6 at a concrete state: three runs after shutdown leave the
allocation count at 4 (nothing allocated); a run before shutdown allocates
block 4 and returns a local reference to it. -/
theorem run_after_shutdown_dead_letters_witness :
    (⟨false, 4⟩ : SysState).shuttingDown = false ∧
    (runMany 3 (sysShutdown ⟨false, 4⟩)).1.blocksAllocated = 4 ∧
    sysRunFiber ⟨false, 4⟩ = (⟨false, 5⟩, RunRef.localRef 4) :=
  ⟨rfl, (run_after_shutdown_dead_letters ⟨false, 4⟩ 3 rfl).1.1,
    (run_after_shutdown_dead_letters ⟨false, 4⟩ 3 rfl).2⟩

/-- C8: the executor chosen for each newly started fiber follows the
round-robin counter modulo the number of workers: starting from counter
value `c0`, the `k`-th of `n` successive starts is scheduled on executor
`(c0 + k) % numExecutors`, and the counter advances by one per start. -/
theorem run_selects_workers_round_robin (n c0 numEx : Nat) :
    (scheduleMany n ⟨c0, numEx⟩).2 =
      (List.range n).map (fun k => (c0 + k) % numEx) ∧
    (scheduleMany n ⟨c0, numEx⟩).1.roundRobinCounter = c0 + n := by
  induction n generalizing c0 with
  | zero => exact ⟨rfl, rfl⟩
  | succ n ih =>
    constructor
    · simp only [scheduleMany, runSelectWorker, schedule, List.range_succ_eq_map,
        List.map_cons, List.map_map]
      rw [(ih (c0 + 1)).1]
      refine congrArg₂ _ (by simp) ?_
      apply List.map_congr_left
      intro k _
      simp only [Function.comp]
      congr 1
      omega
    · simp only [scheduleMany, runSelectWorker, schedule]
      rw [(ih (c0 + 1)).2]
      omega

end Fiberize
